import Mathlib

/-!
# Verification of the behavioral-forensics detectors (`static/js/analysis.js`)

Shallow embedding of the two client-side detectors:

* the mouse-trajectory similarity engine (`dtwAnalysis`: `euclideanDistance`,
  `fastDTW`, `extractInitialStroke`, `compareMouseTrajectories`) together with
  the pairwise orchestrator `runClientDtwAnalysis`, and
* the fingerprint grouping engine `analyzeFingerprints`.

JavaScript numbers are idealized as exact arithmetic: trajectory coordinates
and timestamps are rationals, and the similarity pipeline (which takes real
square roots) lives in `ℝ`.  The `Infinity` entries of the DTW cost matrix are
modelled by `⊤ : WithTop ℝ`.  JS objects used as string-keyed maps are
modelled by association lists in insertion order, and JS `Set`s by
duplicate-free lists in insertion order.  Ambient global state read by the
source (`allLoadedResults`, `settings`) is passed explicitly as arguments.
-/

namespace Analysis

/-- A JS point `[x, y]`. -/
abbrev Pt2 := ℚ × ℚ

/-- A JS trajectory point `[x, y, timestampMs]`; the timestamp is `p.2.2`. -/
abbrev Pt3 := ℚ × ℚ × ℚ

/-- Embedding of `dtwAnalysis.euclideanDistance(point1, point2)`:
`Math.sqrt(Math.pow(p1[0]-p2[0],2) + Math.pow(p1[1]-p2[1],2))`. -/
noncomputable def euclideanDistance (p1 p2 : Pt2) : ℝ :=
  Real.sqrt (((p1.1 - p2.1) ^ 2 + (p1.2 - p2.2) ^ 2 : ℚ) : ℝ)

/-- The DTW matrix right after
`Array(n+1).fill(null).map(() => Array(m+1).fill(Infinity)); dtw[0][0] = 0;`,
as a total function (reads and writes only ever touch indices `≤ n`, `≤ m`). -/
noncomputable def dtwInit : Nat → Nat → WithTop ℝ :=
  fun i j => if i = 0 ∧ j = 0 then 0 else ⊤

/-- One assignment
`dtw[i][j] = cost + Math.min(dtw[i-1][j], dtw[i][j-1], dtw[i-1][j-1])`
of the inner loop body of `fastDTW`, where
`cost = euclideanDistance(sequence1[i-1], sequence2[j-1])`. -/
noncomputable def dtwCell (s1 s2 : List Pt2) (M : Nat → Nat → WithTop ℝ) (i j : Nat) :
    Nat → Nat → WithTop ℝ :=
  fun a b =>
    if a = i ∧ b = j then
      (euclideanDistance (s1.getD (i - 1) (0, 0)) (s2.getD (j - 1) (0, 0)) : WithTop ℝ) +
        min (M (i - 1) j) (min (M i (j - 1)) (M (i - 1) (j - 1)))
    else M a b

/-- The inner loop `for (let j = 1; j <= m; j++)` of `fastDTW` for row `i`. -/
noncomputable def dtwRow (s1 s2 : List Pt2) (i : Nat) (M : Nat → Nat → WithTop ℝ) :
    Nat → Nat → WithTop ℝ :=
  (List.range s2.length).foldl (fun M0 j0 => dtwCell s1 s2 M0 i (j0 + 1)) M

/-- The outer loop `for (let i = 1; i <= n; i++)` of `fastDTW`. -/
noncomputable def dtwLoop (s1 s2 : List Pt2) : Nat → Nat → WithTop ℝ :=
  (List.range s1.length).foldl (fun M i0 => dtwRow s1 s2 (i0 + 1) M) dtwInit

/-- Embedding of `dtwAnalysis.fastDTW(sequence1, sequence2)`: runs the two nested loops over
the initialized matrix and returns `dtw[n][m]`. -/
noncomputable def fastDTW (s1 s2 : List Pt2) : WithTop ℝ :=
  dtwLoop s1 s2 s1.length s2.length

/-- The classic DTW recurrence as the specification states it:
`D[0][0] = 0`, `D[i][0] = D[0][j] = +∞` for `i, j > 0`, and
`D[i][j] = cost(i,j) + min(D[i-1][j], D[i][j-1], D[i-1][j-1])` with `cost(i,j)`
the Euclidean distance between point `i` of `seqA` and point `j` of `seqB`
(1-indexed). -/
noncomputable def dtwD (s1 s2 : List Pt2) : Nat → Nat → WithTop ℝ
  | 0, 0 => 0
  | _ + 1, 0 => ⊤
  | 0, _ + 1 => ⊤
  | i + 1, j + 1 =>
      (euclideanDistance (s1.getD i (0, 0)) (s2.getD j (0, 0)) : WithTop ℝ) +
        min (dtwD s1 s2 i (j + 1)) (min (dtwD s1 s2 (i + 1) j) (dtwD s1 s2 i j))

/-- Fold a loop invariant along `(List.range n).foldl`. -/
theorem foldl_range_inv {α : Type} (P : Nat → α → Prop) (f : α → Nat → α)
    (n : Nat) (a : α) (h0 : P 0 a)
    (hs : ∀ k b, k < n → P k b → P (k + 1) (f b k)) :
    P n ((List.range n).foldl f a) := by
  induction n with
  | zero => simpa using h0
  | succ n ih =>
    rw [List.range_succ, List.foldl_append]
    simp only [List.foldl_cons, List.foldl_nil]
    exact hs n _ (Nat.lt_succ_self n)
      (ih (fun k b hk hb => hs k b (Nat.lt_succ_of_lt hk) hb))

/-- The loop state `M` agrees with the recurrence `dtwD` on the boundary, on
every full row `< i`, and on row `i` up to column `j`. -/
def DtwAgree (s1 s2 : List Pt2) (i j : Nat) (M : Nat → Nat → WithTop ℝ) : Prop :=
  ∀ a b, a ≤ s1.length → b ≤ s2.length →
    (a = 0 ∨ b = 0 ∨ a < i ∨ (a = i ∧ b ≤ j)) → M a b = dtwD s1 s2 a b

theorem dtwCell_agree (s1 s2 : List Pt2) (i k : Nat) (M : Nat → Nat → WithTop ℝ)
    (hi1 : 1 ≤ i) (hin : i ≤ s1.length) (hk : k < s2.length)
    (h : DtwAgree s1 s2 i k M) :
    DtwAgree s1 s2 i (k + 1) (dtwCell s1 s2 M i (k + 1)) := by
  intro a b ha hb hcond
  by_cases hab : a = i ∧ b = k + 1
  · obtain ⟨rfl, rfl⟩ := hab
    obtain ⟨i', rfl⟩ : ∃ i', a = i' + 1 := ⟨a - 1, by omega⟩
    have e1 : M i' (k + 1) = dtwD s1 s2 i' (k + 1) :=
      h i' (k + 1) (by omega) (by omega) (by omega)
    have e2 : M (i' + 1) k = dtwD s1 s2 (i' + 1) k :=
      h (i' + 1) k (by omega) (by omega) (by omega)
    have e3 : M i' k = dtwD s1 s2 i' k :=
      h i' k (by omega) (by omega) (by omega)
    show dtwCell s1 s2 M (i' + 1) (k + 1) (i' + 1) (k + 1) = dtwD s1 s2 (i' + 1) (k + 1)
    rw [dtwCell]
    simp only [and_self, if_pos, Nat.add_sub_cancel]
    rw [e1, e2, e3]
    rw [dtwD]
  · have hM : dtwCell s1 s2 M i (k + 1) a b = M a b := by
      rw [dtwCell]; simp only [hab, if_false]
    rw [hM]
    exact h a b ha hb (by omega)

theorem dtwRow_agree (s1 s2 : List Pt2) (i : Nat) (M : Nat → Nat → WithTop ℝ)
    (hi1 : 1 ≤ i) (hin : i ≤ s1.length) (h : DtwAgree s1 s2 i 0 M) :
    DtwAgree s1 s2 i s2.length (dtwRow s1 s2 i M) := by
  rw [dtwRow]
  exact foldl_range_inv (fun k M0 => DtwAgree s1 s2 i k M0)
    (fun M0 j0 => dtwCell s1 s2 M0 i (j0 + 1)) s2.length M h
    (fun k M0 hkn hM => dtwCell_agree s1 s2 i k M0 hi1 hin hkn hM)

theorem dtwInit_agree (s1 s2 : List Pt2) : DtwAgree s1 s2 0 s2.length dtwInit := by
  intro a b _ _ hcond
  match a, b with
  | 0, 0 => simp [dtwInit, dtwD]
  | 0, c + 1 => simp [dtwInit, dtwD]
  | c + 1, 0 => simp [dtwInit, dtwD]
  | c + 1, d + 1 => exact absurd hcond (by omega)

theorem dtwLoop_agree (s1 s2 : List Pt2) :
    DtwAgree s1 s2 s1.length s2.length (dtwLoop s1 s2) := by
  rw [dtwLoop]
  exact foldl_range_inv (fun k M0 => DtwAgree s1 s2 k s2.length M0)
    (fun M0 i0 => dtwRow s1 s2 (i0 + 1) M0) s1.length dtwInit (dtwInit_agree s1 s2)
    (fun k M0 hkn hM => by
      apply dtwRow_agree s1 s2 (k + 1) M0 (by omega) (by omega)
      intro a b ha hb hcond
      exact hM a b ha hb (by omega))

/-- The imperative double loop of `fastDTW` computes exactly the classic DTW
recurrence at `(n, m)`. -/
theorem fastDTW_eq_dtwD (s1 s2 : List Pt2) :
    fastDTW s1 s2 = dtwD s1 s2 s1.length s2.length := by
  rw [fastDTW]
  exact dtwLoop_agree s1 s2 s1.length s2.length le_rfl le_rfl (by omega)

theorem euclideanDistance_comm (p q : Pt2) :
    euclideanDistance p q = euclideanDistance q p := by
  rw [euclideanDistance, euclideanDistance]
  congr 1
  push_cast
  ring

theorem euclideanDistance_self (p : Pt2) : euclideanDistance p p = 0 := by
  rw [euclideanDistance]
  simp

theorem euclideanDistance_nonneg (p q : Pt2) : 0 ≤ euclideanDistance p q :=
  Real.sqrt_nonneg _

/-- The DTW recurrence is symmetric in its two sequences (transposing the
matrix). -/
theorem dtwD_symm (s1 s2 : List Pt2) : ∀ i j, dtwD s1 s2 i j = dtwD s2 s1 j i := by
  intro i
  induction i with
  | zero =>
    intro j
    cases j with
    | zero => simp [dtwD]
    | succ j => simp [dtwD]
  | succ i ih =>
    intro j
    induction j with
    | zero => simp [dtwD]
    | succ j ihj =>
      rw [dtwD, dtwD]
      rw [ih (j + 1), ihj, ih j, euclideanDistance_comm]
      rw [min_left_comm]

/-- Every entry of the DTW recurrence is nonnegative (costs are square roots,
the boundary is `⊤`). -/
theorem dtwD_nonneg (s1 s2 : List Pt2) : ∀ i j, 0 ≤ dtwD s1 s2 i j := by
  intro i
  induction i with
  | zero =>
    intro j
    cases j with
    | zero => simp [dtwD]
    | succ j => simp [dtwD]
  | succ i ih =>
    intro j
    induction j with
    | zero => simp [dtwD]
    | succ j ihj =>
      rw [dtwD]
      have hc : (0 : WithTop ℝ) ≤
          (euclideanDistance (s1.getD i (0, 0)) (s2.getD j (0, 0)) : WithTop ℝ) := by
        exact_mod_cast euclideanDistance_nonneg _ _
      exact add_nonneg hc (le_min (ih (j + 1)) (le_min ihj (ih j)))

/-- DTW of a sequence against itself is `0`: the diagonal path has zero cost
and all entries are nonnegative. -/
theorem dtwD_self (q : List Pt2) : ∀ k, dtwD q q k k = 0 := by
  intro k
  induction k with
  | zero => simp [dtwD]
  | succ k ih =>
    refine le_antisymm ?_ (dtwD_nonneg q q (k + 1) (k + 1))
    rw [dtwD, euclideanDistance_self]
    have h0 : ((0 : ℝ) : WithTop ℝ) = 0 := rfl
    rw [h0, zero_add]
    calc min (dtwD q q k (k + 1)) (min (dtwD q q (k + 1) k) (dtwD q q k k))
        ≤ dtwD q q k k := le_trans (min_le_right _ _) (min_le_right _ _)
      _ = 0 := ih

theorem fastDTW_comm (s1 s2 : List Pt2) : fastDTW s1 s2 = fastDTW s2 s1 := by
  rw [fastDTW_eq_dtwD, fastDTW_eq_dtwD, dtwD_symm]

theorem fastDTW_self (q : List Pt2) : fastDTW q q = 0 := by
  rw [fastDTW_eq_dtwD, dtwD_self]

/-- Embedding of `dtwAnalysis.extractInitialStroke(trajectory)`: cut the trajectory at the
first inter-point gap exceeding `PAUSE_THRESHOLD_SEC = 0.25` seconds
(timestamps are milliseconds, hence the division by `1000`); a trajectory of
fewer than 2 points is returned unchanged.  (The JS `!trajectory` null guard
is unrepresentable here: inputs are lists.) -/
def extractInitialStroke (t : List Pt3) : List Pt3 :=
  if t.length < 2 then t
  else
    match (List.range (t.length - 1)).find?
        (fun k => ((t.getD (k + 1) (0, 0, 0)).2.2 - (t.getD k (0, 0, 0)).2.2) / 1000 > 1 / 4) with
    | some k => t.take (k + 1)
    | none => t

/-- JS `Math.min(...lst)` for a nonempty spread list (the `[]` case yields
`Infinity` in JS; it is never reached here because `normalize` maps an empty
point list to the empty list before the bounds are used). -/
def jsMinList (l : List ℚ) : ℚ :=
  match l with
  | [] => 0
  | x :: xs => xs.foldl min x

/-- JS `Math.max(...lst)`, same convention as `jsMinList`. -/
def jsMaxList (l : List ℚ) : ℚ :=
  match l with
  | [] => 0
  | x :: xs => xs.foldl max x

/-- The inner `normalize` of `compareMouseTrajectories`: rescale into a
1000×1000 box.  The JS `maxX - minX || 1` replaces a **zero** range (and only
a zero range) by `1`. -/
def normalize (points : List Pt2) : List Pt2 :=
  let xs := points.map Prod.fst
  let ys := points.map Prod.snd
  let minX := jsMinList xs
  let maxX := jsMaxList xs
  let minY := jsMinList ys
  let maxY := jsMaxList ys
  let rangeX := if maxX - minX = 0 then 1 else maxX - minX
  let rangeY := if maxY - minY = 0 then 1 else maxY - minY
  points.map (fun p => (1000 * (p.1 - minX) / rangeX, 1000 * (p.2 - minY) / rangeY))

/-- The normalizer as the specification (and claim C1) words it:
`x' = 1000 * (x - minX) / max(maxX - minX, 1)`, analogously for `y`. -/
def claimedNormalize (points : List Pt2) : List Pt2 :=
  let xs := points.map Prod.fst
  let ys := points.map Prod.snd
  let minX := jsMinList xs
  let maxX := jsMaxList xs
  let minY := jsMinList ys
  let maxY := jsMaxList ys
  let rangeX := max (maxX - minX) 1
  let rangeY := max (maxY - minY) 1
  points.map (fun p => (1000 * (p.1 - minX) / rangeX, 1000 * (p.2 - minY) / rangeY))

/-- Embedding of `dtwAnalysis.compareMouseTrajectories(trajectory1, trajectory2)`.
`fastDTW` is applied to two nonempty sequences on the non-early-exit path
(both lengths are `≥ 10`), where its value is finite; `untop' 0` extracts the
underlying real number there. -/
noncomputable def compareMouseTrajectories (t1 t2 : List Pt3) : ℝ :=
  let stroke1 := extractInitialStroke t1
  let stroke2 := extractInitialStroke t2
  if stroke1.length < 10 ∨ stroke2.length < 10 then 0
  else
    let points1 := stroke1.map (fun p => (p.1, p.2.1))
    let points2 := stroke2.map (fun p => (p.1, p.2.1))
    let normP1 := normalize points1
    let normP2 := normalize points2
    let distance := fastDTW normP1 normP2
    let maxPossibleDist : ℝ := 1000 * Real.sqrt 2 * (max normP1.length normP2.length : ℕ)
    let normalizedDistance : ℝ :=
      if 0 < maxPossibleDist then (distance.untop' 0) / maxPossibleDist else 1
    let similarity : ℝ := max 0 ((1 - normalizedDistance) * 100)
    let boosted : ℝ := if 80 < similarity then 80 + (similarity - 80) * 1.5 else similarity
    min 100 boosted

/-- A concrete 12-point diagonal trajectory `[i, i, i]` for `i = 0..11`
(1 ms between consecutive points, so no pause ever exceeds the threshold). -/
def twelvePointLine : List Pt3 :=
  [(0, 0, 0), (1, 1, 1), (2, 2, 2), (3, 3, 3), (4, 4, 4), (5, 5, 5),
   (6, 6, 6), (7, 7, 7), (8, 8, 8), (9, 9, 9), (10, 10, 10), (11, 11, 11)]

/-- A trajectory in which no consecutive time gap exceeds the 0.25 s pause
threshold is returned whole by `extractInitialStroke`. -/
theorem extract_of_no_pause (t : List Pt3)
    (h : ∀ k, k < t.length - 1 →
      ((t.getD (k + 1) (0, 0, 0)).2.2 - (t.getD k (0, 0, 0)).2.2) / 1000 ≤ 1 / 4) :
    extractInitialStroke t = t := by
  rw [extractInitialStroke]
  split
  · rfl
  · rw [List.find?_eq_none.mpr ?_]
    intro k hk
    simp only [List.mem_range] at hk
    simp only [gt_iff_lt, decide_eq_true_eq, not_lt]
    exact h k hk

theorem extract_twelve : extractInitialStroke twelvePointLine = twelvePointLine := by
  apply extract_of_no_pause
  intro k hk
  have hk11 : k < 11 := by simpa [twelvePointLine] using hk
  interval_cases k <;> norm_num [twelvePointLine]

theorem foldl_min_le_init (l : List ℚ) : ∀ a : ℚ, l.foldl min a ≤ a := by
  induction l with
  | nil => intro a; simp
  | cons y ys ih => intro a; exact le_trans (ih (min a y)) (min_le_left a y)

theorem foldl_min_le_mem (l : List ℚ) : ∀ a x : ℚ, x ∈ l → l.foldl min a ≤ x := by
  induction l with
  | nil => intro a x hx; simp at hx
  | cons y ys ih =>
    intro a x hx
    rcases List.mem_cons.mp hx with h | h
    · subst h; exact le_trans (foldl_min_le_init ys (min a x)) (min_le_right a x)
    · exact ih (min a y) x h

theorem foldl_min_mem (l : List ℚ) : ∀ a : ℚ, l.foldl min a = a ∨ l.foldl min a ∈ l := by
  induction l with
  | nil => intro a; left; rfl
  | cons y ys ih =>
    intro a
    rcases ih (min a y) with h | h
    · rcases min_choice a y with hc | hc
      · left; rw [List.foldl_cons, h, hc]
      · right; rw [List.foldl_cons, h, hc]; exact List.mem_cons_self y ys
    · right; exact List.mem_cons_of_mem y h

theorem foldl_max_init_le (l : List ℚ) : ∀ a : ℚ, a ≤ l.foldl max a := by
  induction l with
  | nil => intro a; simp
  | cons y ys ih => intro a; exact le_trans (le_max_left a y) (ih (max a y))

theorem foldl_max_mem_le (l : List ℚ) : ∀ a x : ℚ, x ∈ l → x ≤ l.foldl max a := by
  induction l with
  | nil => intro a x hx; simp at hx
  | cons y ys ih =>
    intro a x hx
    rcases List.mem_cons.mp hx with h | h
    · subst h; exact le_trans (le_max_right a x) (foldl_max_init_le ys (max a x))
    · exact ih (max a y) x h

theorem foldl_max_mem (l : List ℚ) : ∀ a : ℚ, l.foldl max a = a ∨ l.foldl max a ∈ l := by
  induction l with
  | nil => intro a; left; rfl
  | cons y ys ih =>
    intro a
    rcases ih (max a y) with h | h
    · rcases max_choice a y with hc | hc
      · left; rw [List.foldl_cons, h, hc]
      · right; rw [List.foldl_cons, h, hc]; exact List.mem_cons_self y ys
    · right; exact List.mem_cons_of_mem y h

theorem jsMinList_le (l : List ℚ) (x : ℚ) (hx : x ∈ l) : jsMinList l ≤ x := by
  match l with
  | [] => simp at hx
  | y :: ys =>
    rw [jsMinList]
    rcases List.mem_cons.mp hx with h | h
    · subst h; exact foldl_min_le_init ys x
    · exact foldl_min_le_mem ys y x h

theorem jsMinList_mem (l : List ℚ) (h : l ≠ []) : jsMinList l ∈ l := by
  match l with
  | [] => exact absurd rfl h
  | y :: ys =>
    rw [jsMinList]
    rcases foldl_min_mem ys y with h1 | h1
    · rw [h1]; exact List.mem_cons_self _ _
    · exact List.mem_cons_of_mem y h1

theorem jsMaxList_le (l : List ℚ) (x : ℚ) (hx : x ∈ l) : x ≤ jsMaxList l := by
  match l with
  | [] => simp at hx
  | y :: ys =>
    rw [jsMaxList]
    rcases List.mem_cons.mp hx with h | h
    · subst h; exact foldl_max_init_le ys x
    · exact foldl_max_mem_le ys y x h

theorem jsMaxList_mem (l : List ℚ) (h : l ≠ []) : jsMaxList l ∈ l := by
  match l with
  | [] => exact absurd rfl h
  | y :: ys =>
    rw [jsMaxList]
    rcases foldl_max_mem ys y with h1 | h1
    · rw [h1]; exact List.mem_cons_self _ _
    · exact List.mem_cons_of_mem y h1

/-- The value `jsMinList` is the unique least member of a list. -/
theorem jsMinList_eq (l : List ℚ) (m : ℚ) (hm : m ∈ l) (hle : ∀ x ∈ l, m ≤ x) :
    jsMinList l = m :=
  le_antisymm (jsMinList_le l m hm)
    (hle _ (jsMinList_mem l (by rintro rfl; simp at hm)))

/-- The value `jsMaxList` is the unique greatest member of a list. -/
theorem jsMaxList_eq (l : List ℚ) (m : ℚ) (hm : m ∈ l) (hle : ∀ x ∈ l, x ≤ m) :
    jsMaxList l = m :=
  le_antisymm (hle _ (jsMaxList_mem l (by rintro rfl; simp at hm)))
    (jsMaxList_le l m hm)

theorem normalize_length (ps : List Pt2) : (normalize ps).length = ps.length := by
  simp [normalize]

/-- C1 (counterexample): the claim's divisor `max(maxX - minX, 1)` differs from
the code's `maxX - minX || 1` whenever the bounding-box range is strictly
between `0` and `1`.  On the stroke `[(0,0), (1/2,1/2)]` the code divides by
the range `1/2` and yields `[(0,0), (1000,1000)]`, while the claimed formula
divides by `1` and yields `[(0,0), (500,500)]`. -/
theorem normalizer_formula_counterexample :
    normalize [((0 : ℚ), (0 : ℚ)), (1/2, 1/2)] = [(0, 0), (1000, 1000)] ∧
    claimedNormalize [((0 : ℚ), (0 : ℚ)), (1/2, 1/2)] = [(0, 0), (500, 500)] ∧
    normalize [((0 : ℚ), (0 : ℚ)), (1/2, 1/2)] ≠
      claimedNormalize [((0 : ℚ), (0 : ℚ)), (1/2, 1/2)] := by
  refine ⟨?_, ?_, ?_⟩
  · norm_num [normalize, jsMinList, jsMaxList, min_def, max_def]
  · norm_num [claimedNormalize, jsMinList, jsMaxList, min_def, max_def]
  · norm_num [normalize, claimedNormalize, jsMinList, jsMaxList, min_def, max_def]

/-- C1 (amended): for every stroke, the normalizer maps each point `(x, y)` to
`(1000*(x-minX)/rangeX, 1000*(y-minY)/rangeY)` where `minX, maxX, minY, maxY`
form the bounding box over all points of the stroke and `rangeX` is
`maxX - minX` when that is nonzero and `1` otherwise (JS `|| 1`), analogously
for `rangeY`; in the degenerate case of a zero-width or zero-height bounding
box the corresponding coordinate of every point collapses to `0`. -/
theorem normalizer_formula_amended (points : List Pt2) (mnX mxX mnY mxY : ℚ)
    (hmnX : mnX ∈ points.map Prod.fst ∧ ∀ x ∈ points.map Prod.fst, mnX ≤ x)
    (hmxX : mxX ∈ points.map Prod.fst ∧ ∀ x ∈ points.map Prod.fst, x ≤ mxX)
    (hmnY : mnY ∈ points.map Prod.snd ∧ ∀ y ∈ points.map Prod.snd, mnY ≤ y)
    (hmxY : mxY ∈ points.map Prod.snd ∧ ∀ y ∈ points.map Prod.snd, y ≤ mxY) :
    normalize points = points.map (fun p =>
        (1000 * (p.1 - mnX) / (if mxX - mnX = 0 then 1 else mxX - mnX),
         1000 * (p.2 - mnY) / (if mxY - mnY = 0 then 1 else mxY - mnY))) ∧
    (mxX = mnX → ∀ q ∈ normalize points, q.1 = 0) ∧
    (mxY = mnY → ∀ q ∈ normalize points, q.2 = 0) := by
  have eminX : jsMinList (points.map Prod.fst) = mnX := jsMinList_eq _ _ hmnX.1 hmnX.2
  have emaxX : jsMaxList (points.map Prod.fst) = mxX := jsMaxList_eq _ _ hmxX.1 hmxX.2
  have eminY : jsMinList (points.map Prod.snd) = mnY := jsMinList_eq _ _ hmnY.1 hmnY.2
  have emaxY : jsMaxList (points.map Prod.snd) = mxY := jsMaxList_eq _ _ hmxY.1 hmxY.2
  have hform : normalize points = points.map (fun p =>
      (1000 * (p.1 - mnX) / (if mxX - mnX = 0 then 1 else mxX - mnX),
       1000 * (p.2 - mnY) / (if mxY - mnY = 0 then 1 else mxY - mnY))) := by
    rw [normalize]
    rw [eminX, emaxX, eminY, emaxY]
  refine ⟨hform, ?_, ?_⟩
  · intro hdeg q hq
    rw [hform] at hq
    obtain ⟨p, hp, rfl⟩ := List.mem_map.mp hq
    have h1 : mnX ≤ p.1 := hmnX.2 _ (List.mem_map.mpr ⟨p, hp, rfl⟩)
    have h2 : p.1 ≤ mxX := hmxX.2 _ (List.mem_map.mpr ⟨p, hp, rfl⟩)
    have : p.1 = mnX := le_antisymm (hdeg ▸ h2) h1
    simp [this]
  · intro hdeg q hq
    rw [hform] at hq
    obtain ⟨p, hp, rfl⟩ := List.mem_map.mp hq
    have h1 : mnY ≤ p.2 := hmnY.2 _ (List.mem_map.mpr ⟨p, hp, rfl⟩)
    have h2 : p.2 ≤ mxY := hmxY.2 _ (List.mem_map.mpr ⟨p, hp, rfl⟩)
    have : p.2 = mnY := le_antisymm (hdeg ▸ h2) h1
    simp [this]

/-- Witness for `normalizer_formula_amended` at the concrete stroke
`[(0,0), (2,4)]` with bounding box `minX=0, maxX=2, minY=0, maxY=4`. -/
theorem normalizer_formula_amended_witness :
    (((0 : ℚ) ∈ [((0 : ℚ), (0 : ℚ)), (2, 4)].map Prod.fst ∧
        ∀ x ∈ [((0 : ℚ), (0 : ℚ)), (2, 4)].map Prod.fst, (0 : ℚ) ≤ x)) ∧
    (normalize [((0 : ℚ), (0 : ℚ)), (2, 4)] = [((0 : ℚ), (0 : ℚ)), (2, 4)].map (fun p =>
        (1000 * (p.1 - 0) / (if (2 : ℚ) - 0 = 0 then 1 else 2 - 0),
         1000 * (p.2 - 0) / (if (4 : ℚ) - 0 = 0 then 1 else 4 - 0))) ∧
      ((2 : ℚ) = 0 → ∀ q ∈ normalize [((0 : ℚ), (0 : ℚ)), (2, 4)], q.1 = 0) ∧
      ((4 : ℚ) = 0 → ∀ q ∈ normalize [((0 : ℚ), (0 : ℚ)), (2, 4)], q.2 = 0)) :=
  ⟨by decide,
   normalizer_formula_amended [((0 : ℚ), (0 : ℚ)), (2, 4)] 0 2 0 4
     (by decide) (by decide) (by decide) (by decide)⟩

/-- C2: for all point sequences `seqA` (length `n`) and `seqB` (length `m`),
`fastDTW` returns exactly `D[n][m]` of the classic DTW recurrence with
`D[0][0] = 0`, `D[i][0] = D[0][j] = +∞` for `i, j > 0`, and
`D[i][j] = cost(i,j) + min(D[i-1][j], D[i][j-1], D[i-1][j-1])`. -/
theorem dtw_returns_classic_recurrence (seqA seqB : List Pt2) :
    fastDTW seqA seqB = dtwD seqA seqB seqA.length seqB.length :=
  fastDTW_eq_dtwD seqA seqB

/-- C4: if either stroke after extraction has fewer than 10 points, the
similarity scorer returns exactly `0`, regardless of the other stroke. -/
theorem short_stroke_scores_zero (t1 t2 : List Pt3)
    (h : (extractInitialStroke t1).length < 10 ∨ (extractInitialStroke t2).length < 10) :
    compareMouseTrajectories t1 t2 = 0 := by
  rw [compareMouseTrajectories]
  rw [if_pos h]

/-- Witness for `short_stroke_scores_zero`: the empty trajectory against a
12-point trajectory scores `0`. -/
theorem short_stroke_scores_zero_witness :
    ((extractInitialStroke ([] : List Pt3)).length < 10 ∨
      (extractInitialStroke twelvePointLine).length < 10) ∧
    compareMouseTrajectories [] twelvePointLine = 0 :=
  ⟨Or.inl (by decide), short_stroke_scores_zero [] twelvePointLine (Or.inl (by decide))⟩

theorem untop_of_zero : ((0 : WithTop ℝ)).untop' 0 = (0 : ℝ) := rfl

/-- C5: for any stroke `S` whose extracted initial stroke has at least 10
points and a non-degenerate bounding box, comparing `S` with itself yields a
similarity of exactly `100` (the self-DTW distance is `0`, so the raw score is
`100`; the contrast boost turns it into `110` and the final clamp returns
`100`). -/
theorem self_similarity_is_100 (S : List Pt3)
    (hlen : 10 ≤ (extractInitialStroke S).length)
    (hx : jsMinList (((extractInitialStroke S).map (fun p => (p.1, p.2.1))).map Prod.fst) ≠
          jsMaxList (((extractInitialStroke S).map (fun p => (p.1, p.2.1))).map Prod.fst))
    (hy : jsMinList (((extractInitialStroke S).map (fun p => (p.1, p.2.1))).map Prod.snd) ≠
          jsMaxList (((extractInitialStroke S).map (fun p => (p.1, p.2.1))).map Prod.snd)) :
    compareMouseTrajectories S S = 100 := by
  rw [compareMouseTrajectories]
  rw [if_neg (by omega :
    ¬((extractInitialStroke S).length < 10 ∨ (extractInitialStroke S).length < 10))]
  simp only [fastDTW_self, untop_of_zero, zero_div]
  split
  · norm_num [max_def, min_def]
  · rename_i hM
    exfalso
    apply hM
    have hn : (normalize ((extractInitialStroke S).map fun p => (p.1, p.2.1))).length =
        (extractInitialStroke S).length := by
      rw [normalize_length, List.length_map]
    refine mul_pos (mul_pos (by norm_num) (Real.sqrt_pos.mpr (by norm_num))) ?_
    have hpos : 0 < max (normalize ((extractInitialStroke S).map fun p => (p.1, p.2.1))).length
        (normalize ((extractInitialStroke S).map fun p => (p.1, p.2.1))).length := by
      rw [max_self, hn]; omega
    exact_mod_cast hpos

/-- Witness for `self_similarity_is_100`: the 12-point diagonal trajectory
compared with itself scores exactly `100`. -/
theorem self_similarity_is_100_witness :
    10 ≤ (extractInitialStroke twelvePointLine).length ∧
    compareMouseTrajectories twelvePointLine twelvePointLine = 100 :=
  ⟨by rw [extract_twelve]; norm_num [twelvePointLine],
   self_similarity_is_100 twelvePointLine
     (by rw [extract_twelve]; norm_num [twelvePointLine])
     (by rw [extract_twelve]; norm_num [twelvePointLine, jsMinList, jsMaxList, min_def, max_def])
     (by rw [extract_twelve]; norm_num [twelvePointLine, jsMinList, jsMaxList, min_def, max_def])⟩

/-- C6: the similarity scorer is symmetric:
`scoreSimilarity(A, B) = scoreSimilarity(B, A)`. -/
theorem similarity_symmetric (A B : List Pt3) :
    compareMouseTrajectories A B = compareMouseTrajectories B A := by
  rw [compareMouseTrajectories, compareMouseTrajectories]
  by_cases h1 : (extractInitialStroke A).length < 10 ∨ (extractInitialStroke B).length < 10
  · rw [if_pos h1, if_pos (Or.symm h1)]
  · rw [if_neg h1, if_neg (fun hc => h1 (Or.symm hc))]
    simp only [fastDTW_comm (normalize ((extractInitialStroke A).map fun p => (p.1, p.2.1)))
          (normalize ((extractInitialStroke B).map fun p => (p.1, p.2.1))),
        Nat.max_comm (normalize ((extractInitialStroke A).map fun p => (p.1, p.2.1))).length
          (normalize ((extractInitialStroke B).map fun p => (p.1, p.2.1))).length]

/-! ## Session records and the fingerprint grouper -/

/-- The `userInfo` of a session record. -/
structure UserInfo where
  lastName : String
  firstName : String
deriving DecidableEq

/-- The `fingerprint.privacySafe` sub-object; only the field the code reads. -/
structure PrivacySafe where
  webGLRenderer : Option String
deriving DecidableEq

/-- The `fingerprint` sub-object; only the fields the code reads. -/
structure Fingerprint where
  privacySafeHash : Option String
  privacySafe : Option PrivacySafe
deriving DecidableEq

/-- One element of `behavioralMetrics.perQuestion`; only the field the code
reads. -/
structure QuestionMetrics where
  mouseMovements : Option (List Pt3)
deriving DecidableEq

/-- The `behavioralMetrics` of a session record. -/
structure BehavioralMetrics where
  perQuestion : List QuestionMetrics
deriving DecidableEq

/-- A loaded session record, with exactly the fields `analysis.js` reads or
writes.  Optional fields model JS `undefined`/`null`. -/
structure SessionResult where
  sessionId : String
  userInfo : UserInfo
  testType : Option String
  clientIp : Option String
  fingerprint : Option Fingerprint
  fingerprintHash : Option String
  behavioralMetrics : Option BehavioralMetrics
deriving DecidableEq

/-- The ambient `settings` object; only the field `analyzeFingerprints`
reads. -/
structure Settings where
  checkIpInFingerprint : Bool
deriving DecidableEq

/-- JS `o || d` for string-valued `o`: both a missing value and the empty
string (JS falsy) fall back to `d`. -/
def jsStrOr (o : Option String) (d : String) : String :=
  match o with
  | some s => if s = "" then d else s
  | none => d

/-- Embedding of `getFingerprintHash(result)`:
`result.fingerprint?.privacySafeHash || result.fingerprint?.privacySafe?.webGLRenderer || 'unknown'`. -/
def getFingerprintHash (r : SessionResult) : String :=
  jsStrOr (r.fingerprint.bind (fun f => f.privacySafeHash))
    (jsStrOr ((r.fingerprint.bind (fun f => f.privacySafe)).bind (fun p => p.webGLRenderer))
      "unknown")

/-- The in-place mutation `result.fingerprintHash = hash` performed on every
loaded record by step 1 of `analyzeFingerprints`, rendered as a functional
update. -/
def tagFingerprintHash (r : SessionResult) : SessionResult :=
  { r with fingerprintHash := some (getFingerprintHash r) }

/-- JS `` `${lastName} ${firstName}`.trim().toLowerCase() `` (ASCII-level
model of `trim`/`toLowerCase`). -/
def jsLowerTrim (s : String) : String :=
  ⟨((s.data.dropWhile Char.isWhitespace).reverse.dropWhile Char.isWhitespace).reverse.map
      Char.toLower⟩

/-- The normalized identity of a session record. -/
def userName (r : SessionResult) : String :=
  jsLowerTrim (r.userInfo.lastName ++ " " ++ r.userInfo.firstName)

/-- The sub-bucket key of step 2 of `analyzeFingerprints`:
``settings.checkIpInFingerprint ? `${clientIp || 'unknown_ip'}|${testType || 'unknown_test'}` : testType || 'unknown_test'``. -/
def keyOf (s : Settings) (r : SessionResult) : String :=
  if s.checkIpInFingerprint then
    jsStrOr r.clientIp "unknown_ip" ++ "|" ++ jsStrOr r.testType "unknown_test"
  else jsStrOr r.testType "unknown_test"

/-- First-match lookup in a JS-object-as-association-list. -/
def lookupFirst {κ α : Type} [BEq κ] (m : List (κ × α)) (k : κ) : Option α :=
  (m.find? (fun p => p.1 == k)).map (fun p => p.2)

/-- JS `key in object`. -/
def hasKey {κ α : Type} [BEq κ] (m : List (κ × α)) (k : κ) : Bool :=
  m.any (fun p => p.1 == k)

/-- Embedding of `if (!usersByKey[key]) usersByKey[key] = new Set()`. -/
def ensureKey (m : List (String × List String)) (k : String) : List (String × List String) :=
  if hasKey m k then m else m ++ [(k, [])]

/-- Embedding of `usersByKey[key].add(userName)`: JS `Set.add` keeps insertion order and
ignores an element already present. -/
def addNameTo (m : List (String × List String)) (k n : String) :
    List (String × List String) :=
  m.map (fun p => if p.1 == k then (p.1, if n ∈ p.2 then p.2 else p.2 ++ [n]) else p)

/-- The body of the `group.results.forEach` loop of step 2 of
`analyzeFingerprints`: ensure the sub-bucket exists, then add the normalized
identity when it is nonempty (JS truthy). -/
def fpStep (s : Settings) (m : List (String × List String)) (r : SessionResult) :
    List (String × List String) :=
  let k := keyOf s r
  let m1 := ensureKey m k
  if userName r = "" then m1 else addNameTo m1 k (userName r)

/-- The `usersByKey` object built by step 2 of `analyzeFingerprints` over a
group's members. -/
def usersByKey (s : Settings) (ms : List SessionResult) : List (String × List String) :=
  ms.foldl (fpStep s) []

/-- Step 2's anomaly verdict for one group:
`if (group.results.length <= 1) return` leaves the initial `false`, otherwise
`Object.values(usersByKey).some(users => users.size > 1)`. -/
def isAnomalousOf (s : Settings) (ms : List SessionResult) : Bool :=
  if ms.length ≤ 1 then false
  else (usersByKey s ms).any (fun p => decide (1 < p.2.length))

/-- A `{results, isAnomalous}` group value. -/
structure FingerprintGroup where
  results : List SessionResult
  isAnomalous : Bool
deriving DecidableEq

/-- Embedding of `newFingerprintGroups[hash].results.push(result)`, creating the group on
first use. -/
def pushGroup (m : List (String × List SessionResult)) (k : String) (r : SessionResult) :
    List (String × List SessionResult) :=
  if hasKey m k then m.map (fun p => if p.1 == k then (p.1, p.2 ++ [r]) else p)
  else m ++ [(k, [r])]

/-- Step 1 of `analyzeFingerprints`: group the (tagged) records by fingerprint
hash, skipping records whose hash is `'unknown'`. -/
def fingerprintGroupsRaw (results : List SessionResult) :
    List (String × List SessionResult) :=
  results.foldl (fun acc r =>
    if getFingerprintHash r = "unknown" then acc
    else pushGroup acc (getFingerprintHash r) (tagFingerprintHash r)) []

/-- Embedding of `analyzeFingerprints` with the ambient inputs (`allLoadedResults`,
`settings`) passed explicitly: the fingerprint-group map handed to
`setFingerprintGroups`, each group carrying step 2's anomaly flag. -/
def analyzeFingerprints (s : Settings) (results : List SessionResult) :
    List (String × FingerprintGroup) :=
  (fingerprintGroupsRaw results).map (fun p => (p.1, ⟨p.2, isAnomalousOf s p.2⟩))

/-- The effect of `analyzeFingerprints` on the loaded records themselves:
step 1 assigns `result.fingerprintHash = hash` to every record. -/
def analyzeFingerprintsRecords (results : List SessionResult) : List SessionResult :=
  results.map tagFingerprintHash

/-- The effect of `runClientDtwAnalysis` on its input records: the function
reads them but contains no assignment to any record field. -/
def runClientDtwRecords (selected : List SessionResult) : List SessionResult :=
  selected

/-- The sub-bucket key exactly as claim C7 words it: `testType` when
`includeClientIp` is false, the pair `(clientIp, testType)` when it is true. -/
def claimKey (s : Settings) (r : SessionResult) : Option String × Option String :=
  if s.checkIpInFingerprint then (r.clientIp, r.testType) else (none, r.testType)

/-- The anomaly condition exactly as claim C7 words it: some sub-bucket of the
members contains two or more distinct normalized identities. -/
def ClaimAnomalous (s : Settings) (ms : List SessionResult) : Prop :=
  ∃ r1 ∈ ms, ∃ r2 ∈ ms, claimKey s r1 = claimKey s r2 ∧ userName r1 ≠ userName r2

/-- The code's actual anomaly condition: some sub-bucket — keyed by `keyOf`,
the fallback-joined strings — contains two distinct **nonempty** normalized
identities. -/
def CodeAnomalous (s : Settings) (ms : List SessionResult) : Prop :=
  ∃ r1 ∈ ms, ∃ r2 ∈ ms, keyOf s r1 = keyOf s r2 ∧
    userName r1 ≠ "" ∧ userName r2 ≠ "" ∧ userName r1 ≠ userName r2

/-! ## The pairwise DTW orchestrator -/

/-- Embedding of ``const pairKey = `${result1.sessionId}_vs_${result2.sessionId}` ``. -/
def pairKey (r1 r2 : SessionResult) : String :=
  r1.sessionId ++ "_vs_" ++ r2.sessionId

/-- Embedding of `result.behavioralMetrics?.perQuestion || []`. -/
def questionsOf (r : SessionResult) : List QuestionMetrics :=
  match r.behavioralMetrics with
  | some bm => bm.perQuestion
  | none => []

/-- The body of the inner `for (qIndex ...)` loop of `runClientDtwAnalysis`
for one question index: `Math.round(similarity)` when both
`questions[qIndex]?.mouseMovements` are present (JS truthy — an empty array is
truthy), nothing otherwise. -/
noncomputable def qScore (r1 r2 : SessionResult) (q : Nat) : Option ℤ :=
  match ((questionsOf r1).getD q ⟨none⟩).mouseMovements,
        ((questionsOf r2).getD q ⟨none⟩).mouseMovements with
  | some t1, some t2 => some (round (compareMouseTrajectories t1 t2))
  | _, _ => none

/-- The per-pair question map built by the inner `for (qIndex ...)` loop of
`runClientDtwAnalysis`: an entry `qIndex ↦ Math.round(similarity)` exactly
when `qScore` produces one. -/
noncomputable def innerQuestionMap (r1 r2 : SessionResult) : List (Nat × ℤ) :=
  (List.range (min (questionsOf r1).length (questionsOf r2).length)).foldl
    (fun acc q =>
      match qScore r1 r2 q with
      | some v => acc ++ [(q, v)]
      | none => acc) []

/-- Embedding of `analysisData[pairKey] = ...`: JS object assignment overwrites an existing
key and otherwise appends a new one. -/
def setKey {α : Type} (m : List (String × α)) (k : String) (v : α) : List (String × α) :=
  if hasKey m k then m.map (fun p => if p.1 == k then (k, v) else p)
  else m ++ [(k, v)]

/-- The index pairs `(i, j)` with `i < j` enumerated by the double loop of
`runClientDtwAnalysis`, in loop order. -/
def pairsOf {α : Type} : List α → List (α × α)
  | [] => []
  | x :: xs => xs.map (fun y => (x, y)) ++ pairsOf xs

/-- Embedding of `runClientDtwAnalysis(selectedResults)` (the DOM spinner and the awaited
50 ms timeout have no effect on the returned data): for each index pair with
equal `testType`, assign the per-pair question map under the pair key.  The
JS null guard `!result1 || !result2` is unrepresentable here: inputs are
lists of records. -/
noncomputable def runClientDtwAnalysis (selected : List SessionResult) :
    List (String × List (Nat × ℤ)) :=
  (pairsOf selected).foldl
    (fun acc pr =>
      if pr.1.testType ≠ pr.2.testType then acc
      else setKey acc (pairKey pr.1 pr.2) (innerQuestionMap pr.1 pr.2)) []

/-! ## Association-list lemmas -/

theorem lookupFirst_append {κ α : Type} [BEq κ] (m1 m2 : List (κ × α)) (k : κ) :
    lookupFirst (m1 ++ m2) k =
      match lookupFirst m1 k with
      | some v => some v
      | none => lookupFirst m2 k := by
  induction m1 with
  | nil => simp [lookupFirst]
  | cons p m1 ih =>
    cases hp : (p.1 == k) with
    | true => simp [lookupFirst, List.find?_cons, hp]
    | false =>
      simp only [List.cons_append, lookupFirst, List.find?_cons, hp]
      exact ih

theorem lookupFirst_isSome {κ α : Type} [BEq κ] (m : List (κ × α)) (k : κ) :
    (lookupFirst m k).isSome = hasKey m k := by
  induction m with
  | nil => rfl
  | cons p m ih =>
    cases hp : (p.1 == k) with
    | true => simp [lookupFirst, hasKey, List.find?_cons, hp]
    | false =>
      simp only [lookupFirst, hasKey, List.find?_cons, List.any_cons, hp, Bool.false_or]
      exact ih

theorem mem_of_lookupFirst {κ α : Type} [BEq κ] [LawfulBEq κ] {m : List (κ × α)} {k : κ}
    {v : α} (h : lookupFirst m k = some v) : (k, v) ∈ m := by
  rw [lookupFirst] at h
  obtain ⟨p, hfind, hv⟩ := Option.map_eq_some'.mp h
  have hmem := List.mem_of_find?_eq_some hfind
  have hbeq := List.find?_some hfind
  have hkey : p.1 = k := eq_of_beq hbeq
  rw [← hv, ← hkey]
  exact hmem

theorem lookupFirst_map_keyfix {κ α β : Type} [BEq κ] (f : κ × α → κ × β)
    (hf : ∀ p, (f p).1 = p.1) (m : List (κ × α)) (k : κ) :
    lookupFirst (m.map f) k = (m.find? (fun p => p.1 == k)).map (fun p => (f p).2) := by
  induction m with
  | nil => rfl
  | cons p m ih =>
    have hfp : ((f p).1 == k) = (p.1 == k) := by rw [hf]
    cases hp : (p.1 == k) with
    | true => simp [lookupFirst, List.find?_cons, hfp, hp]
    | false =>
      simp only [List.map_cons, lookupFirst, List.find?_cons, hfp, hp]
      exact ih

theorem hasKey_map_keyfix {κ α β : Type} [BEq κ] (f : κ × α → κ × β)
    (hf : ∀ p, (f p).1 = p.1) (m : List (κ × α)) (k : κ) :
    hasKey (m.map f) k = hasKey m k := by
  induction m with
  | nil => rfl
  | cons p m ih =>
    have hfp : ((f p).1 == k) = (p.1 == k) := by rw [hf]
    simp only [hasKey, List.map_cons, List.any_cons] at ih ⊢
    rw [hfp, ih]

theorem hasKey_append {κ α : Type} [BEq κ] (m1 m2 : List (κ × α)) (k : κ) :
    hasKey (m1 ++ m2) k = (hasKey m1 k || hasKey m2 k) := by
  simp [hasKey]

/-- Two distinct members force length `> 1`. -/
theorem one_lt_length_of_two_mem {α : Type} {l : List α} {a b : α}
    (ha : a ∈ l) (hb : b ∈ l) (hab : a ≠ b) : 1 < l.length := by
  match l with
  | [] => simp at ha
  | [x] =>
    simp only [List.mem_singleton] at ha hb
    exact absurd (ha.trans hb.symm) hab
  | x :: y :: t => simp only [List.length]; omega

/-- A duplicate-free list of length `> 1` holds two distinct members. -/
theorem exists_two_of_nodup_long {α : Type} {l : List α} (hn : l.Nodup)
    (hl : 1 < l.length) : ∃ a ∈ l, ∃ b ∈ l, a ≠ b := by
  match l with
  | [] => simp at hl
  | [x] => simp at hl
  | x :: y :: t =>
    refine ⟨x, List.mem_cons_self _ _, y, List.mem_cons_of_mem _ (List.mem_cons_self _ _), ?_⟩
    intro he
    exact (List.nodup_cons.mp hn).1 (he ▸ List.mem_cons_self y t)

/-! ## Invariants of the `usersByKey` construction -/

/-- Every sub-bucket of the accumulator is duplicate-free and holds only
nonempty identities of already-processed members with the matching key. -/
def BucketsSound (s : Settings) (processed : List SessionResult)
    (acc : List (String × List String)) : Prop :=
  ∀ p ∈ acc, p.2.Nodup ∧
    ∀ n ∈ p.2, n ≠ "" ∧ ∃ rr ∈ processed, keyOf s rr = p.1 ∧ userName rr = n

/-- Every processed member with a nonempty identity is recorded in the
sub-bucket of its key. -/
def BucketsComplete (s : Settings) (processed : List SessionResult)
    (acc : List (String × List String)) : Prop :=
  ∀ rr ∈ processed, userName rr ≠ "" →
    ∃ l, lookupFirst acc (keyOf s rr) = some l ∧ userName rr ∈ l

theorem bucketsSound_weaken (s : Settings) (processed ext : List SessionResult)
    (acc : List (String × List String)) (h : BucketsSound s processed acc) :
    BucketsSound s (processed ++ ext) acc := by
  intro p hp
  refine ⟨(h p hp).1, fun n hn => ?_⟩
  obtain ⟨hn0, rr, hrr, hk, hu⟩ := (h p hp).2 n hn
  exact ⟨hn0, rr, List.mem_append_left _ hrr, hk, hu⟩

theorem bucketsSound_ensureKey (s : Settings) (processed : List SessionResult)
    (acc : List (String × List String)) (k : String) (h : BucketsSound s processed acc) :
    BucketsSound s processed (ensureKey acc k) := by
  rw [ensureKey]
  split
  · exact h
  · intro p hp
    rcases List.mem_append.mp hp with hp1 | hp1
    · exact h p hp1
    · rw [List.mem_singleton] at hp1
      subst hp1
      exact ⟨List.nodup_nil, fun n hn => absurd hn (List.not_mem_nil n)⟩

theorem lookupFirst_ensureKey_isSome (acc : List (String × List String)) (k : String) :
    (lookupFirst (ensureKey acc k) k).isSome = true := by
  rw [ensureKey]
  split
  · rename_i h
    rw [lookupFirst_isSome]
    exact h
  · rw [lookupFirst_append]
    cases hl : lookupFirst acc k with
    | some l => simp
    | none => simp [lookupFirst, List.find?]

theorem lookupFirst_ensureKey_of_some (acc : List (String × List String)) (k k' : String)
    (l : List String) (h : lookupFirst acc k' = some l) :
    lookupFirst (ensureKey acc k) k' = some l := by
  rw [ensureKey]
  split
  · exact h
  · rw [lookupFirst_append, h]

theorem lookupFirst_addNameTo (m : List (String × List String)) (k n k' : String) :
    lookupFirst (addNameTo m k n) k' =
      (lookupFirst m k').map
        (fun l => if k' = k then (if n ∈ l then l else l ++ [n]) else l) := by
  rw [addNameTo,
    lookupFirst_map_keyfix (fun p => if p.1 == k then (p.1, if n ∈ p.2 then p.2 else p.2 ++ [n]) else p)
      (fun p => by dsimp only; split <;> rfl) m k']
  rw [lookupFirst]
  cases hf : m.find? (fun p => p.1 == k') with
  | none => rfl
  | some p =>
    have hbeq := List.find?_some hf
    have hkey : p.1 = k' := eq_of_beq hbeq
    dsimp only [Option.map_some']
    by_cases hpk : (p.1 == k) = true
    · have hk'k : k' = k := by rw [← hkey]; exact eq_of_beq hpk
      rw [if_pos hpk, if_pos hk'k]
    · have hk'k : ¬k' = k := by
        intro he
        exact hpk (by rw [hkey, he]; exact beq_self_eq_true k)
      rw [if_neg hpk, if_neg hk'k]

/-- One iteration of the step-2 member loop preserves both invariants. -/
theorem fpStep_preserves (s : Settings) (processed : List SessionResult)
    (acc : List (String × List String)) (r : SessionResult)
    (hS : BucketsSound s processed acc) (hC : BucketsComplete s processed acc) :
    BucketsSound s (processed ++ [r]) (fpStep s acc r) ∧
    BucketsComplete s (processed ++ [r]) (fpStep s acc r) := by
  rw [fpStep]
  have hS1 : BucketsSound s (processed ++ [r]) (ensureKey acc (keyOf s r)) :=
    bucketsSound_ensureKey _ _ _ _ (bucketsSound_weaken _ _ _ _ hS)
  have hC1 : ∀ rr ∈ processed, userName rr ≠ "" →
      ∃ l, lookupFirst (ensureKey acc (keyOf s r)) (keyOf s rr) = some l ∧ userName rr ∈ l := by
    intro rr hrr hnn
    obtain ⟨l, hl, hm⟩ := hC rr hrr hnn
    exact ⟨l, lookupFirst_ensureKey_of_some _ _ _ _ hl, hm⟩
  split
  · rename_i hn
    refine ⟨hS1, ?_⟩
    intro rr hrr hnn
    rcases List.mem_append.mp hrr with hrr1 | hrr1
    · exact hC1 rr hrr1 hnn
    · rw [List.mem_singleton] at hrr1
      subst hrr1
      exact absurd hn hnn
  · rename_i hn
    constructor
    · intro p hp
      obtain ⟨q, hq, rfl⟩ := List.mem_map.mp hp
      by_cases hqk : (q.1 == keyOf s r) = true
      · rw [if_pos hqk]
        have hq1 : q.1 = keyOf s r := eq_of_beq hqk
        refine ⟨?_, ?_⟩
        · dsimp only
          split
          · exact (hS1 q hq).1
          · rename_i hnin
            rw [List.nodup_append]
            exact ⟨(hS1 q hq).1, List.nodup_singleton _,
              fun a ha hb => hnin (by rwa [List.mem_singleton.mp hb] at ha)⟩
        · intro n' hn'
          dsimp only at hn'
          have hn'' : n' ∈ q.2 ∨ n' = userName r := by
            revert hn'
            split
            · exact fun hn' => Or.inl hn'
            · intro hn'
              rcases List.mem_append.mp hn' with h | h
              · exact Or.inl h
              · exact Or.inr (List.mem_singleton.mp h)
          rcases hn'' with h | h
          · exact (hS1 q hq).2 n' h
          · subst h
            exact ⟨hn, r, List.mem_append_right _ (List.mem_singleton_self r), hq1.symm, rfl⟩
      · rw [if_neg hqk]
        exact hS1 q hq
    · intro rr hrr hnn
      rcases List.mem_append.mp hrr with hrr1 | hrr1
      · obtain ⟨l, hl, hm⟩ := hC1 rr hrr1 hnn
        refine ⟨if keyOf s rr = keyOf s r then (if userName r ∈ l then l else l ++ [userName r]) else l,
          ?_, ?_⟩
        · rw [lookupFirst_addNameTo, hl]
          rfl
        · split
          · split
            · exact hm
            · exact List.mem_append_left _ hm
          · exact hm
      · rw [List.mem_singleton] at hrr1
        subst hrr1
        obtain ⟨l0, hl0⟩ := Option.isSome_iff_exists.mp
          (lookupFirst_ensureKey_isSome acc (keyOf s rr))
        refine ⟨if userName rr ∈ l0 then l0 else l0 ++ [userName rr], ?_, ?_⟩
        · rw [lookupFirst_addNameTo, hl0]
          simp
        · split
          · rename_i hmem
            exact hmem
          · exact List.mem_append_right _ (List.mem_singleton_self _)

/-- The invariants hold after folding any member list. -/
theorem usersByKey_fold_inv (s : Settings) (ms : List SessionResult) :
    ∀ (processed : List SessionResult) (acc : List (String × List String)),
      BucketsSound s processed acc → BucketsComplete s processed acc →
      BucketsSound s (processed ++ ms) (ms.foldl (fpStep s) acc) ∧
      BucketsComplete s (processed ++ ms) (ms.foldl (fpStep s) acc) := by
  induction ms with
  | nil =>
    intro processed acc hS hC
    simpa using ⟨hS, hC⟩
  | cons r ms ih =>
    intro processed acc hS hC
    have h1 := fpStep_preserves s processed acc r hS hC
    have h2 := ih (processed ++ [r]) (fpStep s acc r) h1.1 h1.2
    rw [List.append_cons]
    simpa using h2

theorem usersByKey_sound (s : Settings) (ms : List SessionResult) :
    BucketsSound s ms (usersByKey s ms) := by
  have h := usersByKey_fold_inv s ms [] []
    (fun p hp => absurd hp (List.not_mem_nil p))
    (fun rr hrr => absurd hrr (List.not_mem_nil rr))
  rw [usersByKey]
  simpa using h.1

theorem usersByKey_complete (s : Settings) (ms : List SessionResult) :
    BucketsComplete s ms (usersByKey s ms) := by
  have h := usersByKey_fold_inv s ms [] []
    (fun p hp => absurd hp (List.not_mem_nil p))
    (fun rr hrr => absurd hrr (List.not_mem_nil rr))
  rw [usersByKey]
  simpa using h.2

/-- The step-2 anomaly verdict is equivalent to the existence of two members
sharing a sub-bucket key with distinct nonempty identities. -/
theorem isAnomalousOf_iff_code (s : Settings) (ms : List SessionResult) :
    isAnomalousOf s ms = true ↔ CodeAnomalous s ms := by
  have hS := usersByKey_sound s ms
  have hC := usersByKey_complete s ms
  rw [isAnomalousOf]
  by_cases hlen : ms.length ≤ 1
  · rw [if_pos hlen]
    constructor
    · intro h
      simp at h
    · rintro ⟨r1, hr1, r2, hr2, hk, hn1, hn2, hne⟩
      have hne' : r1 ≠ r2 := fun he => hne (by rw [he])
      have hlen2 : 1 < ms.length := one_lt_length_of_two_mem hr1 hr2 hne'
      omega
  · rw [if_neg hlen]
    constructor
    · intro h
      obtain ⟨p, hp, hdec⟩ := List.any_eq_true.mp h
      have hlen2 : 1 < p.2.length := of_decide_eq_true hdec
      obtain ⟨a, ha, b, hb, hab⟩ := exists_two_of_nodup_long (hS p hp).1 hlen2
      obtain ⟨ha0, r1, hr1, hk1, hu1⟩ := (hS p hp).2 a ha
      obtain ⟨hb0, r2, hr2, hk2, hu2⟩ := (hS p hp).2 b hb
      exact ⟨r1, hr1, r2, hr2, by rw [hk1, hk2], by rw [hu1]; exact ha0,
        by rw [hu2]; exact hb0, by rw [hu1, hu2]; exact hab⟩
    · rintro ⟨r1, hr1, r2, hr2, hk, hn1, hn2, hne⟩
      obtain ⟨l1, hl1, hm1⟩ := hC r1 hr1 hn1
      obtain ⟨l2, hl2, hm2⟩ := hC r2 hr2 hn2
      rw [hk, hl2] at hl1
      have hll : l2 = l1 := Option.some.inj hl1
      subst hll
      have hlen2 : 1 < l2.length := one_lt_length_of_two_mem hm1 hm2 hne
      exact List.any_eq_true.mpr ⟨(keyOf s r2, l2), mem_of_lookupFirst hl2,
        decide_eq_true hlen2⟩

/-- Sample record: identity "Ab Cd", test `t`, privacy-safe hash `h`. -/
def sessAbCd : SessionResult :=
  { sessionId := "s1", userInfo := ⟨"Ab", "Cd"⟩, testType := some "t", clientIp := none,
    fingerprint := some ⟨some "h", none⟩, fingerprintHash := none, behavioralMetrics := none }

/-- Sample record: empty identity, test `t`, privacy-safe hash `h`. -/
def sessNoName : SessionResult :=
  { sessionId := "s2", userInfo := ⟨"", ""⟩, testType := some "t", clientIp := none,
    fingerprint := some ⟨some "h", none⟩, fingerprintHash := none, behavioralMetrics := none }

/-- Sample record: identity "Ee Ff", test `t`, privacy-safe hash `h`. -/
def sessEeFf : SessionResult :=
  { sessionId := "s3", userInfo := ⟨"Ee", "Ff"⟩, testType := some "t", clientIp := none,
    fingerprint := some ⟨some "h", none⟩, fingerprintHash := none, behavioralMetrics := none }

/-- C7 (counterexample): two members share hash `h` and testType `t`; one has
the empty normalized identity.  As the claim words it the `t` sub-bucket holds
two distinct normalized identities (`"ab cd"` and `""`), yet the produced
group has `isAnomalous = false` — the code ignores empty identities. -/
theorem fingerprint_anomaly_counterexample :
    (("h", FingerprintGroup.mk [tagFingerprintHash sessAbCd, tagFingerprintHash sessNoName]
        false) ∈ analyzeFingerprints ⟨false⟩ [sessAbCd, sessNoName]) ∧
    ClaimAnomalous ⟨false⟩ [tagFingerprintHash sessAbCd, tagFingerprintHash sessNoName] := by
  constructor
  · decide
  · exact ⟨tagFingerprintHash sessAbCd, by decide, tagFingerprintHash sessNoName, by decide,
      by decide, by decide⟩

/-- C7 (amended): for every fingerprint group produced by the grouper,
`isAnomalous` is true iff at least one sub-bucket of its members — keyed by
the string `testType || 'unknown_test'` when `checkIpInFingerprint` is false,
or `` `${clientIp || 'unknown_ip'}|${testType || 'unknown_test'}` `` when it
is true — contains two or more distinct **nonempty** normalized identities
(lowercased, trimmed `"lastName firstName"`; an empty normalized identity is
ignored); in particular a group with exactly one member is never anomalous. -/
theorem fingerprint_anomaly_iff (s : Settings) (results : List SessionResult)
    (k : String) (g : FingerprintGroup)
    (hg : (k, g) ∈ analyzeFingerprints s results) :
    (g.isAnomalous = true ↔ CodeAnomalous s g.results) ∧
    (g.results.length = 1 → g.isAnomalous = false) := by
  obtain ⟨p, hp, he⟩ := List.mem_map.mp hg
  injection he with h1 h2
  subst h2
  constructor
  · exact isAnomalousOf_iff_code s p.2
  · intro hlen
    show isAnomalousOf s p.2 = false
    rw [isAnomalousOf, if_pos (le_of_eq hlen)]

/-- The anomalous group of `fingerprint_anomaly_iff_witness`. -/
def group7w : FingerprintGroup :=
  ⟨[tagFingerprintHash sessAbCd, tagFingerprintHash sessEeFf], true⟩

/-- Witness for `fingerprint_anomaly_iff`: the group of the two distinct
identities "ab cd" and "ee ff" on the same test, which the code marks
anomalous. -/
theorem fingerprint_anomaly_iff_witness :
    (("h", group7w) ∈ analyzeFingerprints ⟨false⟩ [sessAbCd, sessEeFf]) ∧
    ((group7w.isAnomalous = true ↔ CodeAnomalous ⟨false⟩ group7w.results) ∧
      (group7w.results.length = 1 → group7w.isAnomalous = false)) :=
  ⟨by decide, fingerprint_anomaly_iff ⟨false⟩ [sessAbCd, sessEeFf] "h" group7w (by decide)⟩

/-- C9 (counterexample): `analyzeFingerprints` mutates its input records —
step 1 assigns `result.fingerprintHash = hash` — so a loaded record with
`fingerprintHash` unset does not survive unchanged. -/
theorem no_mutation_counterexample :
    sessAbCd.fingerprintHash = none ∧
    analyzeFingerprintsRecords [sessAbCd] ≠ [sessAbCd] := by
  constructor
  · rfl
  · decide

/-- All fields other than `fingerprintHash` are preserved by the grouper's
tagging of a record, and `fingerprintHash` becomes the computed hash. -/
def MutatesOnlyHash (r : SessionResult) : Prop :=
  (tagFingerprintHash r).sessionId = r.sessionId ∧
  (tagFingerprintHash r).userInfo = r.userInfo ∧
  (tagFingerprintHash r).testType = r.testType ∧
  (tagFingerprintHash r).clientIp = r.clientIp ∧
  (tagFingerprintHash r).fingerprint = r.fingerprint ∧
  (tagFingerprintHash r).behavioralMetrics = r.behavioralMetrics ∧
  (tagFingerprintHash r).fingerprintHash = some (getFingerprintHash r)

/-- C9 (amended): the pairwise orchestrator never writes to its input records;
the fingerprint grouper mutates each input record in exactly one way — it sets
`fingerprintHash` to the computed hash — and leaves every other field
unchanged. -/
theorem detectors_mutation_scope (results : List SessionResult) (r : SessionResult)
    (hr : r ∈ results) :
    runClientDtwRecords results = results ∧
    tagFingerprintHash r ∈ analyzeFingerprintsRecords results ∧
    MutatesOnlyHash r :=
  ⟨rfl, List.mem_map.mpr ⟨r, hr, rfl⟩, rfl, rfl, rfl, rfl, rfl, rfl, rfl⟩

/-- Witness for `detectors_mutation_scope` at the one-record list
`[sessAbCd]`. -/
theorem detectors_mutation_scope_witness :
    (sessAbCd ∈ [sessAbCd]) ∧
    (runClientDtwRecords [sessAbCd] = [sessAbCd] ∧
      tagFingerprintHash sessAbCd ∈ analyzeFingerprintsRecords [sessAbCd] ∧
      MutatesOnlyHash sessAbCd) :=
  ⟨by decide, detectors_mutation_scope [sessAbCd] sessAbCd (by decide)⟩

/-! ## Invariants of the fingerprint-group construction -/

/-- Members of every group in the accumulator carry the group's key as their
tagged hash, and no group is keyed `'unknown'`. -/
def GroupsMemHash (acc : List (String × List SessionResult)) : Prop :=
  ∀ p ∈ acc, p.1 ≠ "unknown" ∧ ∀ m ∈ p.2, m.fingerprintHash = some p.1

/-- Every processed record with a usable hash is a member of its hash's
group. -/
def GroupsComplete (processed : List SessionResult)
    (acc : List (String × List SessionResult)) : Prop :=
  ∀ rr ∈ processed, getFingerprintHash rr ≠ "unknown" →
    ∃ ms, lookupFirst acc (getFingerprintHash rr) = some ms ∧ tagFingerprintHash rr ∈ ms

theorem lookupFirst_pushGroup_map (m : List (String × List SessionResult)) (k : String)
    (r : SessionResult) (k' : String) :
    lookupFirst (m.map (fun p => if p.1 == k then (p.1, p.2 ++ [r]) else p)) k' =
      (lookupFirst m k').map (fun l => if k' = k then l ++ [r] else l) := by
  rw [lookupFirst_map_keyfix (fun p => if p.1 == k then (p.1, p.2 ++ [r]) else p)
    (fun p => by dsimp only; split <;> rfl) m k']
  rw [lookupFirst]
  cases hf : m.find? (fun p => p.1 == k') with
  | none => rfl
  | some p =>
    have hbeq := List.find?_some hf
    have hkey : p.1 = k' := eq_of_beq hbeq
    dsimp only [Option.map_some']
    by_cases hpk : (p.1 == k) = true
    · have hk'k : k' = k := by rw [← hkey]; exact eq_of_beq hpk
      rw [if_pos hpk, if_pos hk'k]
    · have hk'k : ¬k' = k := by
        intro he
        exact hpk (by rw [hkey, he]; exact beq_self_eq_true k)
      rw [if_neg hpk, if_neg hk'k]

theorem lookupFirst_none_of_hasKey_false {κ α : Type} [BEq κ] (m : List (κ × α)) (k : κ)
    (h : hasKey m k = false) : lookupFirst m k = none := by
  have hs := lookupFirst_isSome m k
  rw [h] at hs
  exact Option.not_isSome_iff_eq_none.mp (by rw [hs]; exact Bool.false_ne_true)

theorem lookupFirst_pushGroup_self (m : List (String × List SessionResult)) (k : String)
    (r : SessionResult) :
    ∃ ms, lookupFirst (pushGroup m k r) k = some ms ∧ r ∈ ms := by
  rw [pushGroup]
  split
  · rename_i hk
    obtain ⟨l, hl⟩ := Option.isSome_iff_exists.mp
      (show (lookupFirst m k).isSome = true by rw [lookupFirst_isSome]; exact hk)
    refine ⟨l ++ [r], ?_, List.mem_append_right _ (List.mem_singleton_self r)⟩
    rw [lookupFirst_pushGroup_map, hl]
    simp
  · rename_i hk
    refine ⟨[r], ?_, List.mem_singleton_self r⟩
    rw [lookupFirst_append, lookupFirst_none_of_hasKey_false m k
      (by rwa [Bool.not_eq_true] at hk)]
    simp [lookupFirst, List.find?]

theorem lookupFirst_pushGroup_of_some (m : List (String × List SessionResult))
    (k : String) (r : SessionResult) (k' : String) (l : List SessionResult)
    (h : lookupFirst m k' = some l) :
    lookupFirst (pushGroup m k r) k' = some (if k' = k then l ++ [r] else l) := by
  rw [pushGroup]
  split
  · rw [lookupFirst_pushGroup_map, h]
    rfl
  · rename_i hk
    have hk'k : k' ≠ k := by
      intro he
      apply hk
      rw [← lookupFirst_isSome, ← he, h]
      rfl
    rw [lookupFirst_append, h, if_neg hk'k]

/-- One iteration of the grouping loop preserves both invariants. -/
theorem groupsStep_preserves (processed : List SessionResult)
    (acc : List (String × List SessionResult)) (r : SessionResult)
    (hM : GroupsMemHash acc) (hC : GroupsComplete processed acc) :
    GroupsMemHash
      (if getFingerprintHash r = "unknown" then acc
       else pushGroup acc (getFingerprintHash r) (tagFingerprintHash r)) ∧
    GroupsComplete (processed ++ [r])
      (if getFingerprintHash r = "unknown" then acc
       else pushGroup acc (getFingerprintHash r) (tagFingerprintHash r)) := by
  by_cases hu : getFingerprintHash r = "unknown"
  · rw [if_pos hu]
    refine ⟨hM, ?_⟩
    intro rr hrr hne
    rcases List.mem_append.mp hrr with h1 | h1
    · exact hC rr h1 hne
    · rw [List.mem_singleton] at h1
      subst h1
      exact absurd hu hne
  · rw [if_neg hu]
    constructor
    · rw [pushGroup]
      split
      · intro p hp
        obtain ⟨q, hq, rfl⟩ := List.mem_map.mp hp
        by_cases hqk : (q.1 == getFingerprintHash r) = true
        · rw [if_pos hqk]
          refine ⟨(hM q hq).1, ?_⟩
          intro m hm
          rcases List.mem_append.mp hm with h1 | h1
          · exact (hM q hq).2 m h1
          · rw [List.mem_singleton] at h1
            subst h1
            rw [tagFingerprintHash]
            rw [eq_of_beq hqk]
        · rw [if_neg hqk]
          exact hM q hq
      · intro p hp
        rcases List.mem_append.mp hp with h1 | h1
        · exact hM p h1
        · rw [List.mem_singleton] at h1
          subst h1
          refine ⟨hu, ?_⟩
          intro m hm
          rw [List.mem_singleton] at hm
          subst hm
          rfl
    · intro rr hrr hne
      rcases List.mem_append.mp hrr with h1 | h1
      · obtain ⟨ms, hms, hmem⟩ := hC rr h1 hne
        refine ⟨if getFingerprintHash rr = getFingerprintHash r
            then ms ++ [tagFingerprintHash r] else ms,
          lookupFirst_pushGroup_of_some _ _ _ _ _ hms, ?_⟩
        split
        · exact List.mem_append_left _ hmem
        · exact hmem
      · rw [List.mem_singleton] at h1
        subst h1
        exact lookupFirst_pushGroup_self acc (getFingerprintHash rr) (tagFingerprintHash rr)

/-- The grouping invariants hold after folding any record list. -/
theorem groupsRaw_fold_inv (ms : List SessionResult) :
    ∀ (processed : List SessionResult) (acc : List (String × List SessionResult)),
      GroupsMemHash acc → GroupsComplete processed acc →
      GroupsMemHash (ms.foldl (fun acc r =>
          if getFingerprintHash r = "unknown" then acc
          else pushGroup acc (getFingerprintHash r) (tagFingerprintHash r)) acc) ∧
      GroupsComplete (processed ++ ms) (ms.foldl (fun acc r =>
          if getFingerprintHash r = "unknown" then acc
          else pushGroup acc (getFingerprintHash r) (tagFingerprintHash r)) acc) := by
  induction ms with
  | nil =>
    intro processed acc hM hC
    simpa using ⟨hM, hC⟩
  | cons r ms ih =>
    intro processed acc hM hC
    have h1 := groupsStep_preserves processed acc r hM hC
    have h2 := ih (processed ++ [r]) _ h1.1 h1.2
    rw [List.append_cons]
    simpa using h2

theorem groupsRaw_memHash (results : List SessionResult) :
    GroupsMemHash (fingerprintGroupsRaw results) := by
  have h := groupsRaw_fold_inv results [] []
    (fun p hp => absurd hp (List.not_mem_nil p))
    (fun rr hrr => absurd hrr (List.not_mem_nil rr))
  rw [fingerprintGroupsRaw]
  exact h.1

theorem groupsRaw_complete (results : List SessionResult) :
    GroupsComplete results (fingerprintGroupsRaw results) := by
  have h := groupsRaw_fold_inv results [] []
    (fun p hp => absurd hp (List.not_mem_nil p))
    (fun rr hrr => absurd hrr (List.not_mem_nil rr))
  rw [fingerprintGroupsRaw]
  simpa using h.2

/-- Lookup in the final group map is lookup in the raw grouping, with the
anomaly flag attached. -/
theorem analyzeFingerprints_lookup (s : Settings) (results : List SessionResult)
    (k : String) :
    lookupFirst (analyzeFingerprints s results) k =
      (lookupFirst (fingerprintGroupsRaw results) k).map
        (fun ms => ⟨ms, isAnomalousOf s ms⟩) := by
  rw [analyzeFingerprints,
    lookupFirst_map_keyfix (fun p => (p.1, (⟨p.2, isAnomalousOf s p.2⟩ : FingerprintGroup)))
      (fun p => rfl), lookupFirst]
  cases List.find? (fun p => p.1 == k) (fingerprintGroupsRaw results) <;> rfl

/-- Sample record: no privacy-safe hash, WebGL renderer literally
`"unknown"`. -/
def sessWebGL : SessionResult :=
  { sessionId := "s4", userInfo := ⟨"Gg", "Hh"⟩, testType := some "t", clientIp := none,
    fingerprint := some ⟨none, some ⟨some "unknown"⟩⟩, fingerprintHash := none,
    behavioralMetrics := none }

/-- Sample record: no privacy-safe hash, WebGL renderer `"r1"`. -/
def sessWebGLR : SessionResult :=
  { sessionId := "s5", userInfo := ⟨"Gg", "Hh"⟩, testType := some "t", clientIp := none,
    fingerprint := some ⟨none, some ⟨some "r1"⟩⟩, fingerprintHash := none,
    behavioralMetrics := none }

/-- C10 (counterexample): a session whose `privacySafeHash` is absent but
whose `webGLRenderer` is present — the literal string `"unknown"` — is
excluded from grouping (the output holds no groups at all), although the
claim says only sessions with *neither* field present are excluded. -/
theorem webgl_fallback_counterexample :
    sessWebGL.fingerprint.bind (fun f => f.privacySafeHash) = none ∧
    (sessWebGL.fingerprint.bind (fun f => f.privacySafe)).bind (fun p => p.webGLRenderer) =
      some "unknown" ∧
    analyzeFingerprints ⟨false⟩ [sessWebGL] = [] := by
  refine ⟨rfl, rfl, by decide⟩

/-- What actually happens to a session without a usable privacy-safe hash:
its signature is the (fallback) renderer string, it joins the group keyed by
that signature when the signature is usable, and it is in no group when the
effective signature is `'unknown'`. -/
def FallbackConclusion (s : Settings) (results : List SessionResult)
    (r : SessionResult) : Prop :=
  getFingerprintHash r =
    jsStrOr ((r.fingerprint.bind (fun f => f.privacySafe)).bind (fun p => p.webGLRenderer))
      "unknown" ∧
  (getFingerprintHash r ≠ "unknown" →
    ∃ g, lookupFirst (analyzeFingerprints s results) (getFingerprintHash r) = some g ∧
      tagFingerprintHash r ∈ g.results) ∧
  (getFingerprintHash r = "unknown" →
    ∀ p ∈ analyzeFingerprints s results, tagFingerprintHash r ∉ p.2.results)

/-- C10 (amended): when `privacySafeHash` is absent **or empty** (JS falsy),
the grouper falls back to `privacySafe.webGLRenderer` as the grouping
signature (with the same falsy rule); a session joins the group keyed by that
signature whenever the effective signature is not `'unknown'`, and only
sessions whose effective signature evaluates to `'unknown'` — both fields
absent/empty, or the renderer string being literally `"unknown"` — are
excluded from grouping. -/
theorem webgl_fallback_grouping (s : Settings) (results : List SessionResult)
    (r : SessionResult) (hr : r ∈ results)
    (hAbsent : r.fingerprint.bind (fun f => f.privacySafeHash) = none ∨
               r.fingerprint.bind (fun f => f.privacySafeHash) = some "") :
    FallbackConclusion s results r := by
  refine ⟨?_, ?_, ?_⟩
  · rw [getFingerprintHash]
    rcases hAbsent with h | h
    · rw [h]
      rfl
    · rw [h]
      simp [jsStrOr]
  · intro hne
    obtain ⟨ms, hms, hmem⟩ := groupsRaw_complete results r hr hne
    refine ⟨⟨ms, isAnomalousOf s ms⟩, ?_, hmem⟩
    rw [analyzeFingerprints_lookup, hms]
    rfl
  · intro hu p hp hmem
    obtain ⟨q, hq, rfl⟩ := List.mem_map.mp hp
    have h2 := (groupsRaw_memHash results q hq).2 _ hmem
    have h1 := (groupsRaw_memHash results q hq).1
    have hqr : getFingerprintHash r = q.1 := Option.some.inj h2
    exact h1 (by rw [← hqr, hu])

/-- Witness for `webgl_fallback_grouping`: the renderer string `"r1"` becomes
the signature and the session forms the `"r1"` group. -/
theorem webgl_fallback_grouping_witness :
    (sessWebGLR ∈ [sessWebGLR]) ∧
    (sessWebGLR.fingerprint.bind (fun f => f.privacySafeHash) = none ∨
      sessWebGLR.fingerprint.bind (fun f => f.privacySafeHash) = some "") ∧
    FallbackConclusion ⟨false⟩ [sessWebGLR] sessWebGLR :=
  ⟨by decide, Or.inl rfl,
   webgl_fallback_grouping ⟨false⟩ [sessWebGLR] sessWebGLR (by decide) (Or.inl rfl)⟩

/-! ## The per-pair question map -/

/-- Characterization of the question map: index `q` carries exactly
`qScore r1 r2 q`, for `q` below the shorter `perQuestion` length, and nothing
beyond it. -/
theorem innerQuestionMap_lookup (r1 r2 : SessionResult) (q : Nat) :
    lookupFirst (innerQuestionMap r1 r2) q =
      if q < min (questionsOf r1).length (questionsOf r2).length then qScore r1 r2 q
      else none := by
  rw [innerQuestionMap]
  have h := foldl_range_inv
    (fun k acc => ∀ q' : Nat,
      lookupFirst acc q' = if q' < k then qScore r1 r2 q' else none)
    (fun acc q =>
      match qScore r1 r2 q with
      | some v => acc ++ [(q, v)]
      | none => acc)
    (min (questionsOf r1).length (questionsOf r2).length) []
    (fun q' => by simp [lookupFirst])
    (fun k acc hk ih q' => by
      cases hs : qScore r1 r2 k with
      | none =>
        simp only [hs]
        rw [ih q']
        by_cases hq : q' = k
        · subst hq
          rw [if_neg (by omega), if_pos (by omega), hs]
        · by_cases hq2 : q' < k
          · rw [if_pos hq2, if_pos (by omega)]
          · rw [if_neg hq2, if_neg (by omega)]
      | some v =>
        simp only [hs]
        rw [lookupFirst_append, ih q']
        by_cases hq : q' = k
        · subst hq
          rw [if_neg (by omega), if_pos (by omega), hs]
          simp [lookupFirst, List.find?]
        · by_cases hq2 : q' < k
          · rw [if_pos hq2, if_pos (by omega)]
            cases hqs : qScore r1 r2 q' with
            | none =>
              simp only [lookupFirst, List.find?]
              rw [show ((k : Nat) == q') = false by
                simpa using fun he => hq he.symm]
              rfl
            | some w => rfl
          · rw [if_neg hq2, if_neg (by omega)]
            simp only [lookupFirst, List.find?]
            rw [show ((k : Nat) == q') = false by
              simpa using fun he => hq he.symm]
            rfl)
  exact h q

/-- C3 (amended): for a pair of sessions with equal `testType` and a question
index `q` below the shorter `perQuestion` length: if either session's
`mouseMovements` for `q` is **absent** (`null`/`undefined`), no entry for `q`
is added to that pair's question map; if both are present — *including a
present but empty array, which is JS-truthy* — an entry is always added,
scoring the pair of trajectories (an empty one scores `0`). -/
theorem question_skip_amended (r1 r2 : SessionResult) (q : Nat)
    (hq : q < min (questionsOf r1).length (questionsOf r2).length) :
    ((((questionsOf r1).getD q ⟨none⟩).mouseMovements = none ∨
      ((questionsOf r2).getD q ⟨none⟩).mouseMovements = none) →
        lookupFirst (innerQuestionMap r1 r2) q = none) ∧
    (∀ t1 t2, ((questionsOf r1).getD q ⟨none⟩).mouseMovements = some t1 →
      ((questionsOf r2).getD q ⟨none⟩).mouseMovements = some t2 →
        lookupFirst (innerQuestionMap r1 r2) q =
          some (round (compareMouseTrajectories t1 t2))) := by
  constructor
  · intro habs
    rw [innerQuestionMap_lookup, if_pos hq, qScore]
    rcases habs with h | h
    · rw [h]
    · rw [h]
      cases ((questionsOf r1).getD q ⟨none⟩).mouseMovements <;> rfl
  · intro t1 t2 h1 h2
    rw [innerQuestionMap_lookup, if_pos hq, qScore, h1, h2]

/-- Session `a`: testType `t`, one question whose `mouseMovements` is a
present but empty array. -/
def sessEmptyTraj1 : SessionResult :=
  { sessionId := "a", userInfo := ⟨"Ab", "Cd"⟩, testType := some "t", clientIp := none,
    fingerprint := none, fingerprintHash := none,
    behavioralMetrics := some ⟨[⟨some []⟩]⟩ }

/-- Session `b`: same shape as `sessEmptyTraj1`. -/
def sessEmptyTraj2 : SessionResult :=
  { sessionId := "b", userInfo := ⟨"Ee", "Ff"⟩, testType := some "t", clientIp := none,
    fingerprint := none, fingerprintHash := none,
    behavioralMetrics := some ⟨[⟨some []⟩]⟩ }

/-- C3 (counterexample): both sessions have a **present but empty**
`mouseMovements` array at question 0, yet the pair's question map gets an
entry for question 0 (scored `0`) instead of the question being skipped: an
empty array is JS-truthy, so `if (traj1 && traj2)` passes. -/
theorem question_skip_counterexample :
    ((questionsOf sessEmptyTraj1).getD 0 ⟨none⟩).mouseMovements = some [] ∧
    ((questionsOf sessEmptyTraj2).getD 0 ⟨none⟩).mouseMovements = some [] ∧
    runClientDtwAnalysis [sessEmptyTraj1, sessEmptyTraj2] = [("a_vs_b", [(0, 0)])] := by
  refine ⟨rfl, rfl, ?_⟩
  have hcmp : compareMouseTrajectories [] [] = 0 := by
    rw [compareMouseTrajectories]
    rw [if_pos (Or.inl (by decide))]
  have hscore : qScore sessEmptyTraj1 sessEmptyTraj2 0 = some 0 := by
    show some (round (compareMouseTrajectories [] [])) = some 0
    rw [hcmp]
    norm_num
  have hinner : innerQuestionMap sessEmptyTraj1 sessEmptyTraj2 = [(0, 0)] := by
    rw [innerQuestionMap]
    rw [show min (questionsOf sessEmptyTraj1).length (questionsOf sessEmptyTraj2).length = 1
      from rfl]
    rw [show List.range 1 = [0] from rfl, List.foldl_cons, List.foldl_nil, hscore]
    rfl
  rw [runClientDtwAnalysis]
  rw [show pairsOf [sessEmptyTraj1, sessEmptyTraj2] = [(sessEmptyTraj1, sessEmptyTraj2)]
    from rfl]
  rw [List.foldl_cons, List.foldl_nil]
  rw [if_neg (by intro h; exact h rfl)]
  rw [setKey]
  rw [show hasKey ([] : List (String × List (Nat × ℤ))) (pairKey sessEmptyTraj1 sessEmptyTraj2)
    = false from rfl]
  rw [if_neg (by decide)]
  rw [hinner]
  rfl

/-- Witness for `question_skip_amended` at the concrete pair above and
question 0 (both trajectories present, entry added with score 0). -/
theorem question_skip_amended_witness :
    (0 < min (questionsOf sessEmptyTraj1).length (questionsOf sessEmptyTraj2).length) ∧
    ((((questionsOf sessEmptyTraj1).getD 0 ⟨none⟩).mouseMovements = none ∨
      ((questionsOf sessEmptyTraj2).getD 0 ⟨none⟩).mouseMovements = none) →
        lookupFirst (innerQuestionMap sessEmptyTraj1 sessEmptyTraj2) 0 = none) ∧
    (∀ t1 t2, ((questionsOf sessEmptyTraj1).getD 0 ⟨none⟩).mouseMovements = some t1 →
      ((questionsOf sessEmptyTraj2).getD 0 ⟨none⟩).mouseMovements = some t2 →
        lookupFirst (innerQuestionMap sessEmptyTraj1 sessEmptyTraj2) 0 =
          some (round (compareMouseTrajectories t1 t2))) := by
  refine ⟨by decide, ?_, ?_⟩
  · exact (question_skip_amended sessEmptyTraj1 sessEmptyTraj2 0 (by decide)).1
  · exact (question_skip_amended sessEmptyTraj1 sessEmptyTraj2 0 (by decide)).2

/-! ## Pair keys in the orchestrator -/

theorem pairsOf_mem {α : Type} : ∀ (l : List α) (i j : Nat) (hij : i < j)
    (hj : j < l.length),
    (l.get ⟨i, lt_trans hij hj⟩, l.get ⟨j, hj⟩) ∈ pairsOf l := by
  intro l
  induction l with
  | nil => intro i j hij hj; simp at hj
  | cons x xs ih =>
    intro i j hij hj
    rw [pairsOf]
    cases i with
    | zero =>
      cases j with
      | zero => omega
      | succ j' =>
        apply List.mem_append_left
        exact List.mem_map.mpr ⟨xs.get ⟨j', by simpa using hj⟩, List.get_mem xs _ _, rfl⟩
    | succ i' =>
      cases j with
      | zero => omega
      | succ j' =>
        apply List.mem_append_right
        exact ih i' j' (by omega) (by simpa using hj)

theorem hasKey_setKey_self {α : Type} (m : List (String × α)) (k : String) (v : α) :
    hasKey (setKey m k v) k = true := by
  rw [setKey]
  split
  · rename_i h
    rw [hasKey_map_keyfix (fun p => if p.1 == k then (k, v) else p)
      (fun p => by dsimp only; split
                   · rename_i hb; exact (eq_of_beq hb).symm
                   · rfl)]
    exact h
  · rw [hasKey_append]
    simp [hasKey]

theorem hasKey_setKey_mono {α : Type} (m : List (String × α)) (k' : String) (v : α)
    (k : String) (h : hasKey m k = true) : hasKey (setKey m k' v) k = true := by
  rw [setKey]
  split
  · rw [hasKey_map_keyfix (fun p => if p.1 == k' then (k', v) else p)
      (fun p => by dsimp only; split
                   · rename_i hb; exact (eq_of_beq hb).symm
                   · rfl)]
    exact h
  · rw [hasKey_append, h]
    rfl

/-- Once a key is present in the accumulator it survives the rest of the pair
loop. -/
theorem hasKey_dtwFold_mono (l : List (SessionResult × SessionResult)) :
    ∀ (acc : List (String × List (Nat × ℤ))) (k : String), hasKey acc k = true →
      hasKey (l.foldl (fun acc pr =>
        if pr.1.testType ≠ pr.2.testType then acc
        else setKey acc (pairKey pr.1 pr.2) (innerQuestionMap pr.1 pr.2)) acc) k = true := by
  induction l with
  | nil => intro acc k h; exact h
  | cons pr l ih =>
    intro acc k h
    rw [List.foldl_cons]
    apply ih
    dsimp only
    split
    · exact h
    · exact hasKey_setKey_mono _ _ _ _ h

/-- C8 (amended): the result key for a pair of sessions is
`sessionIdOfEarlier ++ "_vs_" ++ sessionIdOfLater` in **input order** (no
canonicalization): whenever positions `i < j` carry equal `testType`s, the
returned map contains the key built from the id at `i` followed by the id at
`j`.  Reversing the input order of the two sessions therefore produces the
reversed — different — key. -/
theorem pair_key_input_order (selected : List SessionResult) (i j : Nat)
    (hij : i < j) (hj : j < selected.length)
    (ht : (selected.get ⟨i, lt_trans hij hj⟩).testType = (selected.get ⟨j, hj⟩).testType) :
    hasKey (runClientDtwAnalysis selected)
      ((selected.get ⟨i, lt_trans hij hj⟩).sessionId ++ "_vs_" ++
        (selected.get ⟨j, hj⟩).sessionId) = true := by
  obtain ⟨l1, l2, hsplit⟩ := List.append_of_mem (pairsOf_mem selected i j hij hj)
  rw [runClientDtwAnalysis, hsplit, List.foldl_append, List.foldl_cons]
  apply hasKey_dtwFold_mono
  dsimp only
  rw [if_neg (not_not_intro ht)]
  exact hasKey_setKey_self _ _ _

/-- Witness for `pair_key_input_order` at the concrete pair `[a, b]`. -/
theorem pair_key_input_order_witness :
    ((0 : Nat) < 1) ∧
    hasKey (runClientDtwAnalysis [sessEmptyTraj1, sessEmptyTraj2])
      ("a" ++ "_vs_" ++ "b") = true :=
  ⟨by decide,
   pair_key_input_order [sessEmptyTraj1, sessEmptyTraj2] 0 1 (by decide) (by decide) rfl⟩

/-- C8 (counterexample): the same two sessions, given in the two possible
input orders, produce two *different* map keys (`"s1_vs_s3"` vs
`"s3_vs_s1"`): the key is not canonical/input-order-independent. -/
theorem pair_key_order_counterexample :
    runClientDtwAnalysis [sessAbCd, sessEeFf] = [("s1_vs_s3", [])] ∧
    runClientDtwAnalysis [sessEeFf, sessAbCd] = [("s3_vs_s1", [])] ∧
    ("s1_vs_s3" : String) ≠ "s3_vs_s1" := by
  refine ⟨rfl, rfl, by decide⟩

end Analysis
